import Mathlib

/-!
Verification of the `nest` cell-entity-annotation system: a shallow embedding
of the rank-fusion routine (src/utils/functions.py), the `Entity` value type
(src/data_model/kgs.py) and the per-table annotation driver
(src/annotators/__init__.py), together with theorems settling the spec's
claims about them.
-/

namespace Nest

/-! ## Rank fusion: `weighting_by_ranking` (src/utils/functions.py)

Python floats are modelled as exact rationals.  The cosine distance computed
by scipy is an external collaborator and is modelled as an explicit function
parameter over an abstract embedding type `α`. -/

/-- Modelled from the spec: `CandidateEmbeddings` (defined in
data_model/generator.py, which is not under src/): a candidate, identified by
its entity identifier, plus two optional embedding vectors (context and
abstract), either of which may be absent. -/
structure CandidateEmbeddings (α : Type) where
  candidate : String
  context_emb : Option α
  abstract_emb : Option α
deriving DecidableEq

/-- Modelled from the spec: `ScoredCandidate` (defined in
data_model/generator.py, which is not under src/): candidate + 0-based
original rank + optional raw distance + optional fused score; distance and
score are `None` when unavailable. -/
structure ScoredCandidate where
  candidate : String
  original_rank : Nat
  distance : Option ℚ
  score : Option ℚ
deriving DecidableEq

/-- Failure of a Python `assert` statement. -/
inductive PyErr
  | assertionError
deriving DecidableEq

/-- Python truthiness of the optional `default_score` argument:
`None`, `0` and `0.0` are all falsy. -/
def truthy : Option ℚ → Bool
  | none => false
  | some x => x != 0

/-- sklearn `_handle_zeros_in_scale`: a zero data range is replaced by 1
before dividing, so `MinMaxScaler.transform` never divides by zero. -/
def handleZeros (x : ℚ) : ℚ := if x = 0 then 1 else x

/-- The `MinMaxScaler` transform (feature range [0, 1]) for data fitted with
minimum `lo` and maximum `hi`. -/
def minMaxNormalize (lo hi x : ℚ) : ℚ := (x - lo) / handleZeros (hi - lo)

/-- The `for rank, c_emb in enumerate(candidates)` loop of
`weighting_by_ranking`, with ranks starting at `k`: builds the pair
(scored_candidates, non_scored_candidates).  A candidate with both embeddings
is scored with the cosine distance of its vectors; otherwise, if
`default_score` is truthy it is scored with `default_score` as its distance,
and if not it is kept, in original order, among the non-scored candidates. -/
def partitionScored (cos : α → α → ℚ) (default_score : Option ℚ) :
    Nat → List (CandidateEmbeddings α) → List ScoredCandidate × List ScoredCandidate
  | _, [] => ([], [])
  | rank, c :: rest =>
    let p := partitionScored cos default_score (rank + 1) rest
    match c.context_emb, c.abstract_emb with
    | some u, some v => (⟨c.candidate, rank, some (cos u v), none⟩ :: p.1, p.2)
    | _, _ =>
      if truthy default_score then
        (⟨c.candidate, rank, default_score, none⟩ :: p.1, p.2)
      else
        (p.1, ⟨c.candidate, rank, none, none⟩ :: p.2)

/-- The comparison used by `sorted(scored_candidates, key=lambda s: s.score)`
(every sorted element carries `some` score, so the default is irrelevant). -/
def scoreLe (a b : ScoredCandidate) : Bool :=
  decide (a.score.getD 0 ≤ b.score.getD 0)

/-- The raw distances of a list of scored candidates (each scored candidate
carries `some` distance, so the default is irrelevant). -/
def distsOf (l : List ScoredCandidate) : List ℚ :=
  l.map (fun s => s.distance.getD 0)

/-- The `numpy` minimum of the scored candidates' distances: what the distance
`MinMaxScaler` is fitted on. -/
def dminOf (l : List ScoredCandidate) : ℚ :=
  (distsOf l).foldl min ((distsOf l).headD 0)

/-- The `numpy` maximum of the scored candidates' distances: what the distance
`MinMaxScaler` is fitted on. -/
def dmaxOf (l : List ScoredCandidate) : ℚ :=
  (distsOf l).foldl max ((distsOf l).headD 0)

/-- The fused score
`alpha * rank_scaler.transform(rank) + (1 - alpha) * distance_scaler.transform(distance)`
for `n` candidates in total (the rank scaler is fitted on `arange(n)`, so on
minimum 0 and maximum `n - 1`) and scored distances spanning
`[dmin, dmax]`. -/
def fusedScore (alpha n dmin dmax rank dist : ℚ) : ℚ :=
  alpha * minMaxNormalize 0 (n - 1) rank + (1 - alpha) * minMaxNormalize dmin dmax dist

/-- Model of `weighting_by_ranking` (src/utils/functions.py).  The two `assert`
statements become `Except` errors; note that Python truthiness makes the
`default_score >= 0.0` assert run only when `default_score` is truthy.  The
rank scaler is fitted on `arange(len(candidates))` (minimum 0, maximum
`len(candidates) - 1`), the distance scaler on the scored candidates' own
distances; the scored candidates are then given the fused score
`alpha * normalized_rank + (1 - alpha) * normalized_distance`, sorted
ascending by score with Python's stable sort, and the non-scored candidates
are appended after them. -/
def weighting_by_ranking (cos : α → α → ℚ) (candidates : List (CandidateEmbeddings α))
    (alpha : ℚ) (default_score : Option ℚ) : Except PyErr (List ScoredCandidate) :=
  if truthy default_score ∧ ¬ (0 ≤ default_score.getD 0) then .error .assertionError
  else if ¬ (0 ≤ alpha ∧ alpha ≤ 1) then .error .assertionError
  else
    let p := partitionScored cos default_score 0 candidates
    if candidates.isEmpty || p.1.isEmpty then .ok p.2
    else
      let scored := p.1.map (fun s =>
        { s with score := some (fusedScore alpha (candidates.length : ℚ)
            (dminOf p.1) (dmaxOf p.1) (s.original_rank : ℚ) (s.distance.getD 0)) })
      .ok (scored.mergeSort scoreLe ++ p.2)

/-! ## `Entity` (src/data_model/kgs.py)

`Entity` is a `typing.NamedTuple` with a single field `uri` and an overridden
`__eq__` that compares `urllib.parse.unquote(uri).lower()` of both sides.
`urllib.parse.unquote` (Python stdlib, external collaborator) is modelled
faithfully for its documented behavior: `%XX` hex escapes decode to bytes,
maximal runs of escaped bytes are UTF-8-decoded with invalid sequences
replaced by U+FFFD, an escape not followed by two hex digits is kept
literally.  `str.lower` is modelled by ASCII lowercasing (no claim exercises
non-ASCII case mapping). -/

/-- Value of a hexadecimal digit, `none` for non-hex characters. -/
def hexDigit? (c : Char) : Option Nat :=
  if '0' ≤ c ∧ c ≤ '9' then some (c.toNat - '0'.toNat)
  else if 'a' ≤ c ∧ c ≤ 'f' then some (c.toNat - 'a'.toNat + 10)
  else if 'A' ≤ c ∧ c ≤ 'F' then some (c.toNat - 'A'.toNat + 10)
  else none

/-- The Unicode replacement character U+FFFD, produced by `errors='replace'`. -/
def replacementChar : Char := Char.ofNat 0xFFFD

/-- Is `b` a UTF-8 continuation byte? -/
def isCont (b : Nat) : Bool := 0x80 ≤ b && b ≤ 0xBF

/-- UTF-8 decoding of a byte list with `errors='replace'`: each maximal
ill-formed subsequence is replaced by one U+FFFD, restarting at the first
offending byte (the policy CPython's incremental UTF-8 decoder follows). -/
def utf8DecodeReplace : List Nat → List Char
  | [] => []
  | b :: rest =>
    if b < 0x80 then Char.ofNat b :: utf8DecodeReplace rest
    else if 0xC2 ≤ b && b ≤ 0xDF then
      match rest with
      | [] => [replacementChar]
      | b2 :: rest2 =>
        if isCont b2 then
          Char.ofNat ((b - 0xC0) * 0x40 + (b2 - 0x80)) :: utf8DecodeReplace rest2
        else replacementChar :: utf8DecodeReplace (b2 :: rest2)
    else if 0xE0 ≤ b && b ≤ 0xEF then
      match rest with
      | [] => [replacementChar]
      | b2 :: rest2 =>
        if (if b = 0xE0 then 0xA0 ≤ b2 && b2 ≤ 0xBF
            else if b = 0xED then 0x80 ≤ b2 && b2 ≤ 0x9F
            else isCont b2) then
          match rest2 with
          | [] => [replacementChar]
          | b3 :: rest3 =>
            if isCont b3 then
              Char.ofNat ((b - 0xE0) * 0x1000 + (b2 - 0x80) * 0x40 + (b3 - 0x80))
                :: utf8DecodeReplace rest3
            else replacementChar :: utf8DecodeReplace (b3 :: rest3)
        else replacementChar :: utf8DecodeReplace (b2 :: rest2)
    else if 0xF0 ≤ b && b ≤ 0xF4 then
      match rest with
      | [] => [replacementChar]
      | b2 :: rest2 =>
        if (if b = 0xF0 then 0x90 ≤ b2 && b2 ≤ 0xBF
            else if b = 0xF4 then 0x80 ≤ b2 && b2 ≤ 0x8F
            else isCont b2) then
          match rest2 with
          | [] => [replacementChar]
          | b3 :: rest3 =>
            if isCont b3 then
              match rest3 with
              | [] => [replacementChar]
              | b4 :: rest4 =>
                if isCont b4 then
                  Char.ofNat ((b - 0xF0) * 0x40000 + (b2 - 0x80) * 0x1000
                      + (b3 - 0x80) * 0x40 + (b4 - 0x80))
                    :: utf8DecodeReplace rest4
                else replacementChar :: utf8DecodeReplace (b4 :: rest4)
            else replacementChar :: utf8DecodeReplace (b3 :: rest3)
        else replacementChar :: utf8DecodeReplace (b2 :: rest2)
    else replacementChar :: utf8DecodeReplace rest

/-- Scanning loop of `urllib.parse.unquote`: `pending` holds the bytes of the
current run of `%XX` escapes in reverse order; any literal character (or an
escape without two hex digits, which stays literal) flushes the run through
the UTF-8 decoder. -/
def unquoteLoop : List Char → List Nat → List Char
  | [], pending => utf8DecodeReplace pending.reverse
  | '%' :: c1 :: c2 :: rest, pending =>
    match hexDigit? c1, hexDigit? c2 with
    | some hi, some lo => unquoteLoop rest ((16 * hi + lo) :: pending)
    | _, _ =>
      utf8DecodeReplace pending.reverse ++ '%' :: unquoteLoop (c1 :: c2 :: rest) []
  | c :: rest, pending =>
    utf8DecodeReplace pending.reverse ++ c :: unquoteLoop rest []

/-- Model of `urllib.parse.unquote` with the default `encoding='utf-8'`,
`errors='replace'`. -/
def unquote (s : String) : String := String.mk (unquoteLoop s.data [])

/-- Model of `str.lower`, restricted to ASCII case mapping. -/
def pyLower (s : String) : String := String.mk (s.data.map Char.toLower)

/-- Model of `Entity` (src/data_model/kgs.py): a `NamedTuple` holding a URI string. -/
structure Entity where
  uri : String
deriving DecidableEq

/-- Model of `Entity.__eq__` against another `Entity`: compare the percent-decoded,
lowercased URI strings. -/
def entityEq (a b : Entity) : Bool :=
  pyLower (unquote a.uri) == pyLower (unquote b.uri)

/-- An arbitrary Python object handed to `Entity.__eq__`: either another
`Entity` or a non-`Entity` object (abstracted by a tag). -/
inductive PyObj
  | entity (e : Entity)
  | other (tag : String)

/-- Model of `Entity.__eq__` on an arbitrary object: the `isinstance(o, Entity)` guard
returns `False` for every non-`Entity` argument. -/
def entityEqPy (a : Entity) : PyObj → Bool
  | .entity b => entityEq a b
  | .other _ => false

/-- The basis of `hash(Entity(...))`.  The class overrides `__eq__` but not
`__hash__`; `typing.NamedTuple` attaches class-body methods to the generated
tuple subclass with `setattr`, so `tuple.__hash__` survives and the hash is
computed from the raw field values.  Python guarantees equal hashes only for
equal raw strings, so the hash is modelled by its basis, the raw `uri`. -/
def entityHashBasis (e : Entity) : String := e.uri

/-! ## Per-table annotation driver: `CEAAnnotator.annotate_table`
(src/annotators/__init__.py)

The filesystem cache (`annotations/<dataset_id>/<generator_id>/<tab_id>.pkl`,
checked with `os.path.exists`, written with `pickle.dump`, read back with
`pickle.load`) is modelled as an association list from the key triple to the
stored table; pickling a table round-trips it, so serialization is the
identity.  The candidate generator is an external collaborator: a stable id
plus a `get_candidates` function that may fail (modelled by `Except`, since a
raised exception aborts `annotate_table`).  A result pairs the `Except`
outcome — on success, the returned table together with the number of
generator invocations that the call performed — with the cache state after
the call, so that cache writes are explicit. -/

/-- A cell address (row, column). -/
abbrev Cell := Nat × Nat

/-- Modelled from the spec: `Table` (defined in data_model/dataset.py, which
is not under src/): identifier, dataset identifier, the grid of cells — each
carrying its normalized search key — and the mutable annotation layer
cell → Entity. -/
structure Table where
  dataset_id : String
  tab_id : String
  cells : List (Cell × String)
  annotations : Cell → Option Entity

/-- First occurrences of a list of keys, in order — the key sequence of a
Python dict built by insertion. -/
def distinctKeys : List String → List String
  | [] => []
  | k :: rest => k :: distinctKeys (rest.filter (fun x => x ≠ k))
termination_by l => l.length
decreasing_by
  exact Nat.lt_succ_of_le (rest.length_filter_le _)

/-- Modelled from the spec: `Table.get_search_keys_cells_dict` (defined in
data_model/dataset.py, which is not under src/): the mapping from each
distinct search key of the table to the cells sharing that key — one entry
per distinct normalized key. -/
def Table.get_search_keys_cells_dict (t : Table) : List (String × List Cell) :=
  (distinctKeys (t.cells.map Prod.snd)).map
    (fun sk => (sk, (t.cells.filter (fun p => p.2 = sk)).map Prod.fst))

/-- Modelled from the spec: `Table.annotate_cell` (defined in
data_model/dataset.py, which is not under src/): point update of the mutable
annotation layer. -/
def Table.annotate_cell (t : Table) (cell : Cell) (e : Entity) : Table :=
  { t with annotations := fun c => if c = cell then some e else t.annotations c }

/-- A pluggable candidate generator: stable identifying string plus
`get_candidates`, returning for each search key an ordered, best-first list
of candidate entity URIs — or raising (error type `ε`). -/
structure Generator (ε : Type) where
  id : String
  get_candidates : Table → Except ε (List (String × List String))

/-- An exception escaping `annotate_table`: a generator failure, or the
`KeyError` of `search_key_cell_dict[search_key]` when the generator returns a
key the table does not contain. -/
inductive AnnotError (ε : Type)
  | genFailure (e : ε)
  | keyError (sk : String)

/-- Association-list lookup with decidable key equality. -/
def lookupKey (k : κ) [DecidableEq κ] : List (κ × β) → Option β
  | [] => none
  | (k', v) :: rest => if k = k' then some v else lookupKey k rest

/-- The cache key triple (dataset id, generator id, table id). -/
abbrev CacheKey := String × String × String

/-- The annotation cache: one stored table per key triple. -/
abbrev Cache := List (CacheKey × Table)

/-- The `for search_key, candidates in results:` loop of `annotate_table`:
for every search key with a non-empty candidate list, annotate each cell
sharing that key with the first candidate's `Entity`; search keys with an
empty candidate list are skipped.  The dict is only indexed when the
candidate list is non-empty, and a missing key raises `KeyError`. -/
def applyResults (skcd : List (String × List Cell)) :
    Table → List (String × List String) → Except (AnnotError ε) Table
  | t, [] => .ok t
  | t, (_, []) :: rest => applyResults skcd t rest
  | t, (sk, c :: _) :: rest =>
    match lookupKey sk skcd with
    | none => .error (.keyError sk)
    | some cells =>
      applyResults skcd (cells.foldl (fun t' cell => t'.annotate_cell cell ⟨c⟩) t) rest

/-- Model of `CEAAnnotator.annotate_table` (src/annotators/__init__.py).  On a cache
hit the stored artifact is returned unchanged, without touching the
generator; on a miss the generator runs once for the whole table, the
returned candidates are applied through the search-key/cells dict, the
annotated table is persisted, and the persisted artifact is returned.  The
`Nat` counts the generator invocations performed by this call. -/
def annotate_table (g : Generator ε) (cache : Cache) (t : Table) :
    Except (AnnotError ε) (Table × Nat) × Cache :=
  match lookupKey (t.dataset_id, g.id, t.tab_id) cache with
  | some stored => (.ok (stored, 0), cache)
  | none =>
    match g.get_candidates t with
    | .error e => (.error (.genFailure e), cache)
    | .ok results =>
      match applyResults t.get_search_keys_cells_dict t results with
      | .error err => (.error err, cache)
      | .ok annotated => (.ok (annotated, 1), ((t.dataset_id, g.id, t.tab_id), annotated) :: cache)

/-! ## Theorems -/

theorem scoreLe_trans (a b c : ScoredCandidate) (h1 : scoreLe a b) (h2 : scoreLe b c) :
    scoreLe a c := by
  simp only [scoreLe, decide_eq_true_eq] at *
  exact le_trans h1 h2

theorem scoreLe_total (a b : ScoredCandidate) : scoreLe a b || scoreLe b a := by
  simp only [scoreLe, Bool.or_eq_true, decide_eq_true_eq]
  exact le_total _ _

/-- C8: `weighting_by_ranking` rejects invalid parameters before any
computation: for every input, a call with `alpha` outside [0, 1] fails, and a
call with a negative `default_score` fails; in both cases the failure is
independent of the candidates and of the distance function, so no distance or
score is computed. -/
theorem weighting_by_ranking_rejects_invalid (cos : α → α → ℚ)
    (candidates : List (CandidateEmbeddings α)) (alpha : ℚ) (default_score : Option ℚ) :
    ((alpha < 0 ∨ 1 < alpha) →
      weighting_by_ranking cos candidates alpha default_score = .error .assertionError) ∧
    (∀ d : ℚ, d < 0 →
      weighting_by_ranking cos candidates alpha (some d) = .error .assertionError) := by
  constructor
  · intro halpha
    unfold weighting_by_ranking
    by_cases hfirst : truthy default_score ∧ ¬ (0 ≤ default_score.getD 0)
    · rw [if_pos hfirst]
    · rw [if_neg hfirst, if_pos]
      rcases halpha with h | h
      · exact fun hc => absurd hc.1 (not_le.mpr h)
      · exact fun hc => absurd hc.2 (not_le.mpr h)
  · intro d hd
    unfold weighting_by_ranking
    rw [if_pos]
    refine ⟨?_, ?_⟩
    · simp only [truthy, bne_iff_ne, ne_eq]
      exact ne_of_lt hd
    · simpa using not_le.mpr hd

theorem weighting_by_ranking_rejects_invalid_witness :
    weighting_by_ranking (fun (_ _ : Unit) => (0 : ℚ)) [] 2 none = .error .assertionError ∧
    weighting_by_ranking (fun (_ _ : Unit) => (0 : ℚ)) [] (1/2) (some (-1)) =
      .error .assertionError :=
  ⟨(weighting_by_ranking_rejects_invalid (fun (_ _ : Unit) => (0 : ℚ)) [] 2 none).1
      (Or.inr (by norm_num)),
   (weighting_by_ranking_rejects_invalid (fun (_ _ : Unit) => (0 : ℚ)) [] (1/2) none).2
      (-1) (by norm_num)⟩

/-- C7: if the candidate generator raises during `annotate_table` on a cache
miss, the exception propagates to the caller uncaught and the cache is left
unchanged — no artifact is written for that table. -/
theorem annotate_table_generator_failure (g : Generator ε) (cache : Cache) (t : Table) (e : ε)
    (hmiss : lookupKey (t.dataset_id, g.id, t.tab_id) cache = none)
    (herr : g.get_candidates t = .error e) :
    annotate_table g cache t = (.error (.genFailure e), cache) := by
  unfold annotate_table
  rw [hmiss, herr]

theorem annotate_table_generator_failure_witness :
    annotate_table (⟨"gen", fun _ => .error ()⟩ : Generator Unit) []
        ⟨"ds", "t1", [((0, 0), "k")], fun _ => none⟩ =
      (.error (.genFailure ()), []) :=
  annotate_table_generator_failure ⟨"gen", fun _ => .error ()⟩ []
    ⟨"ds", "t1", [((0, 0), "k")], fun _ => none⟩ () rfl rfl

/-- C1: `annotate_table` is idempotent with at-most-once compute: a
successful call performs at most one generator invocation, and calling again
against the resulting cache performs zero generator invocations, returns the
same persisted artifact and leaves the cache unchanged. -/
theorem annotate_table_idempotent (g : Generator ε) (cache : Cache) (t : Table)
    (res : Table) (n : Nat) (c' : Cache)
    (h : annotate_table g cache t = (.ok (res, n), c')) :
    n ≤ 1 ∧ annotate_table g c' t = (.ok (res, 0), c') := by
  unfold annotate_table at h ⊢
  split at h
  next stored hl =>
    simp only [Prod.mk.injEq, Except.ok.injEq] at h
    obtain ⟨⟨rfl, rfl⟩, rfl⟩ := h
    rw [hl]
    exact ⟨Nat.zero_le 1, rfl⟩
  next hl =>
    split at h
    next e hg => simp at h
    next results hg =>
      split at h
      next err ha => simp at h
      next annotated ha =>
        simp only [Prod.mk.injEq, Except.ok.injEq] at h
        obtain ⟨⟨rfl, rfl⟩, rfl⟩ := h
        refine ⟨le_refl 1, ?_⟩
        have hself : lookupKey (t.dataset_id, g.id, t.tab_id)
            (((t.dataset_id, g.id, t.tab_id), annotated) :: cache) = some annotated := by
          simp [lookupKey]
        rw [hself]

theorem annotate_table_idempotent_witness :
    (1 : Nat) ≤ 1 ∧
    annotate_table (⟨"gen", fun _ => .ok []⟩ : Generator Unit)
        [(("ds", "gen", "t1"), ⟨"ds", "t1", [((0, 0), "k")], fun _ => none⟩)]
        ⟨"ds", "t1", [((0, 0), "k")], fun _ => none⟩ =
      (.ok (⟨"ds", "t1", [((0, 0), "k")], fun _ => none⟩, 0),
        [(("ds", "gen", "t1"), ⟨"ds", "t1", [((0, 0), "k")], fun _ => none⟩)]) :=
  annotate_table_idempotent ⟨"gen", fun _ => .ok []⟩ []
    ⟨"ds", "t1", [((0, 0), "k")], fun _ => none⟩
    ⟨"ds", "t1", [((0, 0), "k")], fun _ => none⟩ 1
    [(("ds", "gen", "t1"), ⟨"ds", "t1", [((0, 0), "k")], fun _ => none⟩)] rfl

theorem partitionScored_snd_of_truthy (cos : α → α → ℚ) (ds : Option ℚ)
    (ht : truthy ds = true) :
    ∀ (k : Nat) (cands : List (CandidateEmbeddings α)),
      (partitionScored cos ds k cands).2 = [] := by
  intro k cands
  induction cands generalizing k with
  | nil => rfl
  | cons c rest ih =>
    simp only [partitionScored]
    cases c.context_emb <;> cases c.abstract_emb <;> simp [ht, ih]

theorem partitionScored_mem_default (cos : α → α → ℚ) (ds : Option ℚ)
    (ht : truthy ds = true) :
    ∀ (cands : List (CandidateEmbeddings α)) (k r : Nat) (hr : r < cands.length),
      (cands[r].context_emb = none ∨ cands[r].abstract_emb = none) →
      (⟨cands[r].candidate, k + r, ds, none⟩ : ScoredCandidate) ∈
        (partitionScored cos ds k cands).1 := by
  intro cands
  induction cands with
  | nil => intro k r hr; exact absurd hr (by simp)
  | cons c rest ih =>
    intro k r hr hmiss
    cases r with
    | zero =>
      simp only [List.getElem_cons_zero] at hmiss ⊢
      simp only [partitionScored, Nat.add_zero]
      rcases hmiss with hm | hm <;> rw [hm]
      · cases c.abstract_emb <;> simp [ht]
      · cases c.context_emb <;> simp [ht]
    | succ r' =>
      simp only [List.getElem_cons_succ] at hmiss ⊢
      have hr' : r' < rest.length := by simpa using Nat.lt_of_succ_lt_succ hr
      have hmem := ih (k + 1) r' hr' hmiss
      have hk : k + (r' + 1) = (k + 1) + r' := by omega
      rw [hk]
      simp only [partitionScored]
      cases c.context_emb <;> cases c.abstract_emb <;> simp [ht, hmem]

theorem partitionScored_all_missing (cos : α → α → ℚ) (ds : Option ℚ)
    (hf : truthy ds = false) :
    ∀ (cands : List (CandidateEmbeddings α)) (k : Nat),
      (∀ c ∈ cands, c.context_emb = none ∨ c.abstract_emb = none) →
      partitionScored cos ds k cands =
        ([], (cands.enumFrom k).map fun p => ⟨p.2.candidate, p.1, none, none⟩) := by
  intro cands
  induction cands with
  | nil => intro k _; rfl
  | cons c rest ih =>
    intro k hmiss
    have hhead := hmiss c (List.mem_cons_self c rest)
    have htail : ∀ x ∈ rest, x.context_emb = none ∨ x.abstract_emb = none :=
      fun x hx => hmiss x (List.mem_cons_of_mem c hx)
    simp only [partitionScored, List.enumFrom_cons, List.map_cons, ih (k + 1) htail]
    rcases hhead with hm | hm <;> rw [hm]
    · cases c.abstract_emb <;> simp [hf]
    · cases c.context_emb <;> simp [hf]

/-- C3: when no candidate has both embeddings (the empty list included) and
`default_score` is not provided, `weighting_by_ranking` returns all
candidates in their original order with distance and score unset. -/
theorem weighting_by_ranking_all_unscorable (cos : α → α → ℚ)
    (candidates : List (CandidateEmbeddings α)) (alpha : ℚ)
    (h0 : 0 ≤ alpha) (h1 : alpha ≤ 1)
    (hmiss : ∀ c ∈ candidates, c.context_emb = none ∨ c.abstract_emb = none) :
    weighting_by_ranking cos candidates alpha none =
      .ok (candidates.enum.map fun p => ⟨p.2.candidate, p.1, none, none⟩) := by
  unfold weighting_by_ranking
  rw [if_neg (by simp [truthy]), if_neg (by simp [h0, h1]),
    partitionScored_all_missing cos none rfl candidates 0 hmiss]
  simp [List.enum]

theorem weighting_by_ranking_all_unscorable_witness :
    weighting_by_ranking (fun (_ _ : Unit) => (0 : ℚ))
        [⟨"a", none, none⟩, ⟨"b", some (), none⟩] (1/2) none =
      .ok [⟨"a", 0, none, none⟩, ⟨"b", 1, none, none⟩] := by
  have h := weighting_by_ranking_all_unscorable (fun (_ _ : Unit) => (0 : ℚ))
    [⟨"a", none, none⟩, ⟨"b", some (), none⟩] (1/2) (by norm_num) (by norm_num) (by decide)
  simpa using h

/-- C2 counterexample: the claim quantifies over every provided
`default_score ≥ 0`, but `default_score = 0` is falsy in Python, so the
single unscorable candidate is returned with its score unset instead of being
assigned score 0; moreover with a positive `default_score = 9/10` the
unscorable candidate's final score is the fused value 1, not the literal
9/10 — the default is stored as its distance. -/
theorem weighting_by_ranking_default_literal_counterexample :
    (¬ ∃ out, weighting_by_ranking (fun (_ _ : Unit) => (0 : ℚ))
        [⟨"c", none, none⟩] (1/2) (some 0) = .ok out ∧
        ∃ sc ∈ out, sc.score = some 0) ∧
    (∀ out, weighting_by_ranking (fun (_ _ : Unit) => (0 : ℚ))
        [⟨"a", some (), some ()⟩, ⟨"b", none, none⟩] (1/2) (some (9/10)) = .ok out →
      ∃ sc ∈ out, sc.candidate = "b" ∧ sc.distance = some (9/10) ∧ sc.score = some 1) ∧
    (1 : ℚ) ≠ 9/10 := by
  refine ⟨?_, ?_, by norm_num⟩
  · rintro ⟨out, hout, sc, hmem, hs⟩
    have heval : weighting_by_ranking (fun (_ _ : Unit) => (0 : ℚ))
        [⟨"c", none, none⟩] (1/2) (some 0) = .ok [⟨"c", 0, none, none⟩] := by
      simp only [weighting_by_ranking]
      rw [if_neg (by simp [truthy]), if_neg (by norm_num)]
      simp [partitionScored, truthy]
    rw [heval] at hout
    cases hout
    simp only [List.mem_singleton] at hmem
    subst hmem
    simp at hs
  · intro out hout
    have hp : partitionScored (fun (_ _ : Unit) => (0 : ℚ)) (some (9/10)) 0
        [⟨"a", some (), some ()⟩, ⟨"b", none, none⟩] =
        ([⟨"a", 0, some 0, none⟩, ⟨"b", 1, some (9/10), none⟩], []) := by
      norm_num [partitionScored, truthy]
    have hsB : fusedScore (1/2) 2 (dminOf [⟨"a", 0, some 0, none⟩, ⟨"b", 1, some (9/10), none⟩])
        (dmaxOf [⟨"a", 0, some 0, none⟩, ⟨"b", 1, some (9/10), none⟩]) 1 (9/10) = 1 := by
      norm_num [fusedScore, minMaxNormalize, handleZeros, dminOf, dmaxOf, distsOf]
    simp only [weighting_by_ranking] at hout
    rw [if_neg (by norm_num [truthy]), if_neg (by norm_num), hp] at hout
    simp only [List.isEmpty_cons, Bool.or_false, List.map_cons, List.map_nil,
      List.length_cons, List.length_singleton, List.append_nil] at hout
    rw [if_neg (by simp)] at hout
    cases hout
    simp only [List.mem_mergeSort]
    refine ⟨_, List.mem_cons_of_mem _ (List.mem_cons_self _ _), rfl, rfl, ?_⟩
    simpa using hsB

/-- The main branch of `weighting_by_ranking`: when both asserts pass and at
least one candidate was scored, the result is the scored candidates, given
their fused scores, sorted by score, followed by the non-scored ones. -/
theorem weighting_main_eq (cos : α → α → ℚ) (candidates : List (CandidateEmbeddings α))
    (alpha : ℚ) (ds : Option ℚ)
    (hassert1 : ¬ (truthy ds ∧ ¬ (0 ≤ ds.getD 0)))
    (halpha : 0 ≤ alpha ∧ alpha ≤ 1)
    (hcne : ¬ candidates.isEmpty = true)
    (hpne : ¬ (partitionScored cos ds 0 candidates).1.isEmpty = true) :
    weighting_by_ranking cos candidates alpha ds =
      .ok ((((partitionScored cos ds 0 candidates).1.map fun s =>
          { s with score := some (fusedScore alpha (candidates.length : ℚ)
              (dminOf (partitionScored cos ds 0 candidates).1)
              (dmaxOf (partitionScored cos ds 0 candidates).1)
              (s.original_rank : ℚ) (s.distance.getD 0)) }).mergeSort scoreLe)
        ++ (partitionScored cos ds 0 candidates).2) := by
  simp only [weighting_by_ranking]
  rw [if_neg hassert1, if_neg (fun hc => hc halpha), if_neg (by
    simp only [Bool.or_eq_true]
    rintro (h | h)
    · exact hcne h
    · exact hpne h)]

/-- C2 (amended): for every `alpha` in [0, 1] and every provided
`default_score > 0` (a zero default is falsy in Python and behaves as not
provided), each candidate missing a context or abstract embedding skips the
distance computation, receives exactly `default_score` as its distance, and
is merged into the scored set — no candidate is pushed to the unscored tail
— where it is ranked by the fused score computed from its original rank and
that fixed distance, so it can appear ahead of poorly-scoring scorable
candidates in the final ascending ordering. -/
theorem weighting_by_ranking_default_merges (cos : α → α → ℚ)
    (candidates : List (CandidateEmbeddings α)) (alpha d : ℚ)
    (h0 : 0 ≤ alpha) (h1 : alpha ≤ 1) (hd : 0 < d)
    (r : Nat) (hr : r < candidates.length)
    (hmiss : candidates[r].context_emb = none ∨ candidates[r].abstract_emb = none) :
    ∃ out, weighting_by_ranking cos candidates alpha (some d) = .ok out ∧
      (partitionScored cos (some d) 0 candidates).2 = [] ∧
      (⟨candidates[r].candidate, r, some d,
        some (fusedScore alpha (candidates.length : ℚ)
          (dminOf (partitionScored cos (some d) 0 candidates).1)
          (dmaxOf (partitionScored cos (some d) 0 candidates).1)
          (r : ℚ) d)⟩ : ScoredCandidate) ∈ out := by
  have ht : truthy (some d) = true := by
    simp only [truthy, bne_iff_ne, ne_eq]
    exact ne_of_gt hd
  have hmem0 := partitionScored_mem_default cos (some d) ht candidates 0 r hr hmiss
  rw [Nat.zero_add] at hmem0
  have hne : ¬ candidates.isEmpty = true := by
    cases candidates with
    | nil => exact absurd hr (by simp)
    | cons c rest => simp
  have hne1 : ¬ (partitionScored cos (some d) 0 candidates).1.isEmpty = true := by
    intro hempty
    rw [List.isEmpty_iff] at hempty
    rw [hempty] at hmem0
    exact (List.not_mem_nil _) hmem0
  have hw := weighting_main_eq cos candidates alpha (some d)
    (fun hc => hc.2 (by simpa using le_of_lt hd)) ⟨h0, h1⟩ hne hne1
  refine ⟨_, hw, partitionScored_snd_of_truthy cos (some d) ht 0 candidates, ?_⟩
  apply List.mem_append_left
  rw [List.mem_mergeSort]
  exact List.mem_map.mpr ⟨_, hmem0, rfl⟩

theorem weighting_by_ranking_default_merges_witness :
    ∃ out, weighting_by_ranking (fun (_ _ : Unit) => (0 : ℚ))
        [⟨"a", some (), some ()⟩, ⟨"b", none, none⟩] (1/2) (some (9/10)) = .ok out ∧
      (partitionScored (fun (_ _ : Unit) => (0 : ℚ)) (some (9/10)) 0
        [⟨"a", some (), some ()⟩, ⟨"b", none, none⟩]).2 = [] ∧
      (⟨"b", 1, some (9/10),
        some (fusedScore (1/2) ((2 : Nat) : ℚ)
          (dminOf (partitionScored (fun (_ _ : Unit) => (0 : ℚ)) (some (9/10)) 0
            [⟨"a", some (), some ()⟩, ⟨"b", none, none⟩]).1)
          (dmaxOf (partitionScored (fun (_ _ : Unit) => (0 : ℚ)) (some (9/10)) 0
            [⟨"a", some (), some ()⟩, ⟨"b", none, none⟩]).1)
          ((1 : Nat) : ℚ) (9/10))⟩ : ScoredCandidate) ∈ out :=
  weighting_by_ranking_default_merges (fun (_ _ : Unit) => (0 : ℚ))
    [⟨"a", some (), some ()⟩, ⟨"b", none, none⟩] (1/2) (9/10)
    (by norm_num) (by norm_num) (by norm_num) 1 (by norm_num) (Or.inl rfl)

theorem foldl_min_const (d0 : ℚ) : ∀ l : List ℚ, (∀ x ∈ l, x = d0) → l.foldl min d0 = d0 := by
  intro l
  induction l with
  | nil => intro _; rfl
  | cons x rest ih =>
    intro hall
    have hx : x = d0 := hall x (List.mem_cons_self x rest)
    simp only [List.foldl_cons, hx, min_self]
    exact ih fun y hy => hall y (List.mem_cons_of_mem x hy)

theorem foldl_max_const (d0 : ℚ) : ∀ l : List ℚ, (∀ x ∈ l, x = d0) → l.foldl max d0 = d0 := by
  intro l
  induction l with
  | nil => intro _; rfl
  | cons x rest ih =>
    intro hall
    have hx : x = d0 := hall x (List.mem_cons_self x rest)
    simp only [List.foldl_cons, hx, max_self]
    exact ih fun y hy => hall y (List.mem_cons_of_mem x hy)

theorem distsOf_const (l : List ScoredCandidate) (d0 : ℚ)
    (hall : ∀ sc ∈ l, sc.distance = some d0) : ∀ x ∈ distsOf l, x = d0 := by
  intro x hx
  obtain ⟨sc, hsc, hval⟩ := List.mem_map.mp hx
  rw [← hval, hall sc hsc]
  rfl

theorem headD_distsOf_const (l : List ScoredCandidate) (d0 : ℚ) (hne : l ≠ [])
    (hall : ∀ sc ∈ l, sc.distance = some d0) : (distsOf l).headD 0 = d0 := by
  cases l with
  | nil => exact absurd rfl hne
  | cons sc rest =>
    have := hall sc (List.mem_cons_self sc rest)
    simp [distsOf, this]

theorem dminOf_const (l : List ScoredCandidate) (d0 : ℚ) (hne : l ≠ [])
    (hall : ∀ sc ∈ l, sc.distance = some d0) : dminOf l = d0 := by
  unfold dminOf
  rw [headD_distsOf_const l d0 hne hall]
  exact foldl_min_const d0 _ (distsOf_const l d0 hall)

theorem dmaxOf_const (l : List ScoredCandidate) (d0 : ℚ) (hne : l ≠ [])
    (hall : ∀ sc ∈ l, sc.distance = some d0) : dmaxOf l = d0 := by
  unfold dmaxOf
  rw [headD_distsOf_const l d0 hne hall]
  exact foldl_max_const d0 _ (distsOf_const l d0 hall)

/-- C9: when the scored set carries exactly one distinct distance value
(e.g. a single scorable candidate), the distance `MinMaxScaler` range is
zero; sklearn's zero-range guard replaces the denominator by 1, so no
division by zero occurs, the normalized distance component is 0, and every
scored candidate still receives a fused score — which then reduces to
`alpha * normalized_rank`. -/
theorem weighting_by_ranking_degenerate_range (cos : α → α → ℚ)
    (candidates : List (CandidateEmbeddings α)) (alpha : ℚ) (ds : Option ℚ) (d0 : ℚ)
    (h0 : 0 ≤ alpha) (h1 : alpha ≤ 1)
    (hds : ∀ x : ℚ, ds = some x → 0 ≤ x)
    (hne1 : (partitionScored cos ds 0 candidates).1 ≠ [])
    (hall : ∀ sc ∈ (partitionScored cos ds 0 candidates).1, sc.distance = some d0) :
    ∃ out, weighting_by_ranking cos candidates alpha ds = .ok out ∧
      ∀ sc ∈ (partitionScored cos ds 0 candidates).1,
        (⟨sc.candidate, sc.original_rank, sc.distance,
          some (alpha * minMaxNormalize 0 ((candidates.length : ℚ) - 1)
            (sc.original_rank : ℚ))⟩ : ScoredCandidate) ∈ out := by
  have hassert1 : ¬ (truthy ds ∧ ¬ (0 ≤ ds.getD 0)) := by
    rintro ⟨ht, hneg⟩
    cases ds with
    | none => simp [truthy] at ht
    | some x => exact hneg (by simpa using hds x rfl)
  have hcne : ¬ candidates.isEmpty = true := by
    intro hc
    rw [List.isEmpty_iff] at hc
    subst hc
    exact hne1 rfl
  have hpne : ¬ (partitionScored cos ds 0 candidates).1.isEmpty = true := by
    rw [List.isEmpty_iff]
    exact hne1
  refine ⟨_, weighting_main_eq cos candidates alpha ds hassert1 ⟨h0, h1⟩ hcne hpne, ?_⟩
  intro sc hsc
  apply List.mem_append_left
  rw [List.mem_mergeSort]
  apply List.mem_map.mpr
  refine ⟨sc, hsc, ?_⟩
  rw [dminOf_const _ d0 hne1 hall, dmaxOf_const _ d0 hne1 hall, hall sc hsc]
  simp [fusedScore, minMaxNormalize, handleZeros]

theorem weighting_by_ranking_degenerate_range_witness :
    ∃ out, weighting_by_ranking (fun (_ _ : Unit) => (0 : ℚ))
        [⟨"a", some (), some ()⟩] (1/2) none = .ok out ∧
      ∀ sc ∈ (partitionScored (fun (_ _ : Unit) => (0 : ℚ)) none 0
          [⟨"a", some (), some ()⟩]).1,
        (⟨sc.candidate, sc.original_rank, sc.distance,
          some ((1/2) * minMaxNormalize 0 (((1 : Nat) : ℚ) - 1)
            (sc.original_rank : ℚ))⟩ : ScoredCandidate) ∈ out :=
  weighting_by_ranking_degenerate_range (fun (_ _ : Unit) => (0 : ℚ))
    [⟨"a", some (), some ()⟩] (1/2) none 0 (by norm_num) (by norm_num)
    (fun x hx => by cases hx)
    (by simp [partitionScored])
    (by
      intro sc hsc
      simp only [partitionScored] at hsc
      simp only [List.mem_singleton] at hsc
      subst hsc
      rfl)

/-- C4: with at least one scorable candidate (and no default score), every
scorable candidate receives the fused score
`alpha * (rank min-max normalized over [0, len(candidates) - 1]) +
(1 - alpha) * (distance min-max normalized over the scorable distances)`,
and the output is the scored set sorted ascending by that score — stably, so
ties keep the original relative order — followed by the unscorable
candidates in original-rank order. -/
theorem weighting_by_ranking_fused_characterization (cos : α → α → ℚ)
    (candidates : List (CandidateEmbeddings α)) (alpha : ℚ)
    (h0 : 0 ≤ alpha) (h1 : alpha ≤ 1)
    (hne1 : (partitionScored cos none 0 candidates).1 ≠ []) :
    ∃ sortedPart,
      weighting_by_ranking cos candidates alpha none =
        .ok (sortedPart ++ (partitionScored cos none 0 candidates).2) ∧
      sortedPart.Perm ((partitionScored cos none 0 candidates).1.map fun s =>
        { s with score := some (fusedScore alpha (candidates.length : ℚ)
            (dminOf (partitionScored cos none 0 candidates).1)
            (dmaxOf (partitionScored cos none 0 candidates).1)
            (s.original_rank : ℚ) (s.distance.getD 0)) }) ∧
      sortedPart.Pairwise (fun a b => a.score.getD 0 ≤ b.score.getD 0) ∧
      (∀ a b : ScoredCandidate,
        [a, b].Sublist ((partitionScored cos none 0 candidates).1.map fun s =>
          { s with score := some (fusedScore alpha (candidates.length : ℚ)
              (dminOf (partitionScored cos none 0 candidates).1)
              (dmaxOf (partitionScored cos none 0 candidates).1)
              (s.original_rank : ℚ) (s.distance.getD 0)) }) →
        a.score.getD 0 ≤ b.score.getD 0 → [a, b].Sublist sortedPart) := by
  have hcne : ¬ candidates.isEmpty = true := by
    intro hc
    rw [List.isEmpty_iff] at hc
    subst hc
    exact hne1 rfl
  have hpne : ¬ (partitionScored cos none 0 candidates).1.isEmpty = true := by
    rw [List.isEmpty_iff]
    exact hne1
  refine ⟨_, weighting_main_eq cos candidates alpha none (by simp [truthy]) ⟨h0, h1⟩
    hcne hpne, List.mergeSort_perm _ _, ?_, ?_⟩
  · have hs := List.sorted_mergeSort scoreLe_trans scoreLe_total
      ((partitionScored cos none 0 candidates).1.map fun s =>
        { s with score := some (fusedScore alpha (candidates.length : ℚ)
            (dminOf (partitionScored cos none 0 candidates).1)
            (dmaxOf (partitionScored cos none 0 candidates).1)
            (s.original_rank : ℚ) (s.distance.getD 0)) })
    exact hs.imp fun h => by simpa [scoreLe, decide_eq_true_eq] using h
  · intro a b hsub hle
    refine List.sublist_mergeSort scoreLe_trans scoreLe_total ?_ hsub
    simp [List.pairwise_cons, scoreLe, hle]

theorem weighting_by_ranking_fused_characterization_witness :
    ∃ sortedPart,
      weighting_by_ranking (fun (_ _ : Unit) => (0 : ℚ))
          [⟨"a", some (), some ()⟩, ⟨"b", some (), some ()⟩] (1/2) none =
        .ok (sortedPart ++ (partitionScored (fun (_ _ : Unit) => (0 : ℚ)) none 0
          [⟨"a", some (), some ()⟩, ⟨"b", some (), some ()⟩]).2) ∧
      sortedPart.Perm ((partitionScored (fun (_ _ : Unit) => (0 : ℚ)) none 0
          [⟨"a", some (), some ()⟩, ⟨"b", some (), some ()⟩]).1.map fun s =>
        { s with score := some (fusedScore (1/2) (((2 : Nat)) : ℚ)
            (dminOf (partitionScored (fun (_ _ : Unit) => (0 : ℚ)) none 0
              [⟨"a", some (), some ()⟩, ⟨"b", some (), some ()⟩]).1)
            (dmaxOf (partitionScored (fun (_ _ : Unit) => (0 : ℚ)) none 0
              [⟨"a", some (), some ()⟩, ⟨"b", some (), some ()⟩]).1)
            (s.original_rank : ℚ) (s.distance.getD 0)) }) ∧
      sortedPart.Pairwise (fun a b => a.score.getD 0 ≤ b.score.getD 0) ∧
      (∀ a b : ScoredCandidate,
        [a, b].Sublist ((partitionScored (fun (_ _ : Unit) => (0 : ℚ)) none 0
            [⟨"a", some (), some ()⟩, ⟨"b", some (), some ()⟩]).1.map fun s =>
          { s with score := some (fusedScore (1/2) (((2 : Nat)) : ℚ)
              (dminOf (partitionScored (fun (_ _ : Unit) => (0 : ℚ)) none 0
                [⟨"a", some (), some ()⟩, ⟨"b", some (), some ()⟩]).1)
              (dmaxOf (partitionScored (fun (_ _ : Unit) => (0 : ℚ)) none 0
                [⟨"a", some (), some ()⟩, ⟨"b", some (), some ()⟩]).1)
              (s.original_rank : ℚ) (s.distance.getD 0)) }) →
        a.score.getD 0 ≤ b.score.getD 0 → [a, b].Sublist sortedPart) :=
  weighting_by_ranking_fused_characterization (fun (_ _ : Unit) => (0 : ℚ))
    [⟨"a", some (), some ()⟩, ⟨"b", some (), some ()⟩] (1/2)
    (by norm_num) (by norm_num) (by simp [partitionScored])

theorem partitionScored_proj_perm (cos : α → α → ℚ) (ds : Option ℚ) :
    ∀ (cands : List (CandidateEmbeddings α)) (k : Nat),
      (((partitionScored cos ds k cands).1.map fun sc => (sc.original_rank, sc.candidate)) ++
        ((partitionScored cos ds k cands).2.map fun sc => (sc.original_rank, sc.candidate))).Perm
        ((cands.enumFrom k).map fun p => (p.1, p.2.candidate)) := by
  intro cands
  induction cands with
  | nil => intro k; simp [partitionScored]
  | cons c rest ih =>
    intro k
    simp only [partitionScored, List.enumFrom_cons, List.map_cons]
    cases c.context_emb <;> cases c.abstract_emb <;>
      first
      | (simp only []
         by_cases ht : truthy ds <;> simp only [ht, if_true, if_false, List.map_cons]
         · exact List.Perm.cons _ (ih (k + 1))
         · exact List.perm_middle.trans (List.Perm.cons _ (ih (k + 1))))
      | exact List.Perm.cons _ (ih (k + 1))

/-- C10: for every valid `alpha` and `default_score`, the returned list is a
permutation of the input: it contains, exactly once, each input candidate
wrapped with its 0-based original rank from the input order. -/
theorem weighting_by_ranking_permutation (cos : α → α → ℚ)
    (candidates : List (CandidateEmbeddings α)) (alpha : ℚ) (ds : Option ℚ)
    (h0 : 0 ≤ alpha) (h1 : alpha ≤ 1)
    (hds : ∀ x : ℚ, ds = some x → 0 ≤ x) :
    ∃ out, weighting_by_ranking cos candidates alpha ds = .ok out ∧
      (out.map fun sc => (sc.original_rank, sc.candidate)).Perm
        (candidates.enum.map fun p => (p.1, p.2.candidate)) := by
  have hassert1 : ¬ (truthy ds ∧ ¬ (0 ≤ ds.getD 0)) := by
    rintro ⟨ht, hneg⟩
    cases ds with
    | none => simp [truthy] at ht
    | some x => exact hneg (by simpa using hds x rfl)
  have hperm := partitionScored_proj_perm cos ds candidates 0
  by_cases hguard : (candidates.isEmpty ||
      (partitionScored cos ds 0 candidates).1.isEmpty) = true
  · have hout : weighting_by_ranking cos candidates alpha ds =
        .ok (partitionScored cos ds 0 candidates).2 := by
      simp only [weighting_by_ranking]
      rw [if_neg hassert1, if_neg (fun hc => hc ⟨h0, h1⟩), if_pos hguard]
    have hp1 : (partitionScored cos ds 0 candidates).1 = [] := by
      rcases Bool.or_eq_true .. ▸ hguard with h | h
      · rw [List.isEmpty_iff] at h
        subst h
        rfl
      · rw [List.isEmpty_iff] at h
        exact h
    refine ⟨_, hout, ?_⟩
    rw [hp1] at hperm
    simpa [List.enum] using hperm
  · have hcne : ¬ candidates.isEmpty = true := fun h => hguard (by simp [h])
    have hpne : ¬ (partitionScored cos ds 0 candidates).1.isEmpty = true :=
      fun h => hguard (by simp [h])
    refine ⟨_, weighting_main_eq cos candidates alpha ds hassert1 ⟨h0, h1⟩ hcne hpne, ?_⟩
    rw [List.map_append]
    have hsorted : ((((partitionScored cos ds 0 candidates).1.map fun s =>
        { s with score := some (fusedScore alpha (candidates.length : ℚ)
            (dminOf (partitionScored cos ds 0 candidates).1)
            (dmaxOf (partitionScored cos ds 0 candidates).1)
            (s.original_rank : ℚ) (s.distance.getD 0)) }).mergeSort scoreLe).map
          (fun sc => (sc.original_rank, sc.candidate))).Perm
        ((partitionScored cos ds 0 candidates).1.map fun sc =>
          (sc.original_rank, sc.candidate)) := by
      have hp := (List.mergeSort_perm ((partitionScored cos ds 0 candidates).1.map fun s =>
        { s with score := some (fusedScore alpha (candidates.length : ℚ)
            (dminOf (partitionScored cos ds 0 candidates).1)
            (dmaxOf (partitionScored cos ds 0 candidates).1)
            (s.original_rank : ℚ) (s.distance.getD 0)) }) scoreLe).map
          (fun sc => (sc.original_rank, sc.candidate))
      rw [List.map_map] at hp
      exact hp
    refine ((hsorted.append_right _).trans ?_)
    simpa [List.enum] using hperm

theorem weighting_by_ranking_permutation_witness :
    ∃ out, weighting_by_ranking (fun (_ _ : Unit) => (0 : ℚ))
        [⟨"a", some (), some ()⟩, ⟨"b", none, none⟩] (1/2) none = .ok out ∧
      (out.map fun sc => (sc.original_rank, sc.candidate)).Perm
        (([⟨"a", some (), some ()⟩, ⟨"b", none, none⟩] :
          List (CandidateEmbeddings Unit)).enum.map fun p => (p.1, p.2.candidate)) :=
  weighting_by_ranking_permutation (fun (_ _ : Unit) => (0 : ℚ))
    [⟨"a", some (), some ()⟩, ⟨"b", none, none⟩] (1/2) none
    (by norm_num) (by norm_num) (fun x hx => by cases hx)

theorem mem_distinctKeys_fuel (x : String) :
    ∀ (n : Nat) (l : List String), l.length ≤ n → (x ∈ distinctKeys l ↔ x ∈ l) := by
  intro n
  induction n with
  | zero =>
    intro l hl
    rw [List.eq_nil_of_length_eq_zero (Nat.le_zero.mp hl)]
    simp [distinctKeys]
  | succ n ih =>
    intro l hl
    cases l with
    | nil => simp [distinctKeys]
    | cons k rest =>
      rw [distinctKeys]
      have hlen : (rest.filter fun y => y ≠ k).length ≤ n :=
        le_trans (rest.length_filter_le _) (Nat.le_of_succ_le_succ hl)
      by_cases hx : x = k
      · subst hx; simp [List.mem_cons]
      · rw [List.mem_cons, List.mem_cons, ih (rest.filter fun y => y ≠ k) hlen,
          List.mem_filter]
        constructor
        · rintro (h | ⟨h, _⟩)
          · exact Or.inl h
          · exact Or.inr h
        · rintro (h | h)
          · exact Or.inl h
          · exact Or.inr ⟨h, by simp [hx]⟩

theorem mem_distinctKeys (x : String) (l : List String) :
    x ∈ distinctKeys l ↔ x ∈ l :=
  mem_distinctKeys_fuel x l.length l (le_refl _)

theorem distinctKeys_nodup_fuel :
    ∀ (n : Nat) (l : List String), l.length ≤ n → (distinctKeys l).Nodup := by
  intro n
  induction n with
  | zero =>
    intro l hl
    rw [List.eq_nil_of_length_eq_zero (Nat.le_zero.mp hl)]
    simp only [distinctKeys]
    exact List.nodup_nil
  | succ n ih =>
    intro l hl
    cases l with
    | nil =>
      simp only [distinctKeys]
      exact List.nodup_nil
    | cons k rest =>
      rw [distinctKeys]
      have hlen : (rest.filter fun y => y ≠ k).length ≤ n :=
        le_trans (rest.length_filter_le _) (Nat.le_of_succ_le_succ hl)
      refine List.nodup_cons.mpr ⟨?_, ih _ hlen⟩
      intro hk
      have := (mem_distinctKeys k _).mp hk
      simp [List.mem_filter] at this

theorem distinctKeys_nodup (l : List String) : (distinctKeys l).Nodup :=
  distinctKeys_nodup_fuel l.length l (le_refl _)

theorem lookupKey_map_self {β : Type} (f : String → β) :
    ∀ (keys : List String) (k : String), k ∈ keys →
      lookupKey k (keys.map fun sk => (sk, f sk)) = some (f k) := by
  intro keys
  induction keys with
  | nil => intro k hk; cases hk
  | cons k0 rest ih =>
    intro k hk
    simp only [List.map_cons, lookupKey]
    by_cases he : k = k0
    · subst he; simp
    · rw [if_neg he]
      rcases List.mem_cons.mp hk with h | h
      · exact absurd h he
      · exact ih k h

theorem lookupKey_map_eq {β : Type} (f : String → β) :
    ∀ (keys : List String) (k : String) (v : β),
      lookupKey k (keys.map fun sk => (sk, f sk)) = some v → v = f k := by
  intro keys
  induction keys with
  | nil => intro k v h; cases h
  | cons k0 rest ih =>
    intro k v h
    simp only [List.map_cons, lookupKey] at h
    by_cases he : k = k0
    · subst he
      rw [if_pos rfl] at h
      cases h
      rfl
    · rw [if_neg he] at h
      exact ih k v h

theorem skcd_lookup (t : Table) (sk : String) (hsk : sk ∈ t.cells.map Prod.snd) :
    lookupKey sk t.get_search_keys_cells_dict =
      some ((t.cells.filter fun p => p.2 = sk).map Prod.fst) := by
  unfold Table.get_search_keys_cells_dict
  exact lookupKey_map_self _ _ sk ((mem_distinctKeys sk _).mpr hsk)

theorem skcd_lookup_char (t : Table) (sk : String) (cells : List Cell)
    (h : lookupKey sk t.get_search_keys_cells_dict = some cells) :
    cells = (t.cells.filter fun p => p.2 = sk).map Prod.fst :=
  lookupKey_map_eq _ _ sk cells h

theorem mem_group_iff (t : Table) (sk : String) (cell : Cell) :
    cell ∈ (t.cells.filter fun p => p.2 = sk).map Prod.fst ↔ (cell, sk) ∈ t.cells := by
  constructor
  · intro h
    obtain ⟨p, hp, hfst⟩ := List.mem_map.mp h
    obtain ⟨hpmem, hsnd⟩ := List.mem_filter.mp hp
    have hs : p.2 = sk := of_decide_eq_true hsnd
    have : p = (cell, sk) := by
      obtain ⟨p1, p2⟩ := p
      simp only at hfst hs
      rw [hfst, hs]
    rw [← this]
    exact hpmem
  · intro h
    exact List.mem_map.mpr ⟨(cell, sk), List.mem_filter.mpr ⟨h, by simp⟩, rfl⟩

theorem nodup_fst_unique :
    ∀ (l : List (Cell × String)), (l.map Prod.fst).Nodup →
      ∀ (cell : Cell) (sk sk' : String), (cell, sk) ∈ l → (cell, sk') ∈ l → sk = sk' := by
  intro l
  induction l with
  | nil => intro _ cell sk sk' h; cases h
  | cons p rest ih =>
    intro hnd cell sk sk' h1 h2
    simp only [List.map_cons, List.nodup_cons] at hnd
    rcases List.mem_cons.mp h1 with e1 | m1 <;> rcases List.mem_cons.mp h2 with e2 | m2
    · exact (Prod.mk.injEq .. ▸ (e1.trans e2.symm)).2
    · exfalso
      apply hnd.1
      rw [← e1]
      exact List.mem_map.mpr ⟨(cell, sk'), m2, rfl⟩
    · exfalso
      apply hnd.1
      rw [← e2]
      exact List.mem_map.mpr ⟨(cell, sk), m1, rfl⟩
    · exact ih hnd.2 cell sk sk' m1 m2

theorem foldl_annotate_cell (e : Entity) :
    ∀ (cells : List Cell) (t : Table) (c : Cell),
      (cells.foldl (fun t' cell => t'.annotate_cell cell e) t).annotations c =
        if c ∈ cells then some e else t.annotations c := by
  intro cells
  induction cells with
  | nil => intro t c; simp
  | cons x rest ih =>
    intro t c
    simp only [List.foldl_cons]
    rw [ih]
    by_cases hc : c ∈ rest
    · simp [hc]
    · by_cases hx : c = x
      · simp [Table.annotate_cell, hx, hc]
      · simp [Table.annotate_cell, hx, hc]

theorem applyResults_ok (skcd : List (String × List Cell)) :
    ∀ (results : List (String × List String)) (t : Table),
      (∀ sk cs, (sk, cs) ∈ results → cs ≠ [] → (lookupKey sk skcd).isSome) →
      ∃ t', @applyResults ε skcd t results = .ok t' := by
  intro results
  induction results with
  | nil => intro t _; exact ⟨t, rfl⟩
  | cons r rest ih =>
    intro t hall
    obtain ⟨sk, cs⟩ := r
    cases cs with
    | nil =>
      simp only [applyResults]
      exact ih t fun sk' cs' h hne => hall sk' cs' (List.mem_cons_of_mem _ h) hne
    | cons c cs' =>
      have hs := hall sk (c :: cs') (List.mem_cons_self _ _) (by simp)
      obtain ⟨cells, hcells⟩ := Option.isSome_iff_exists.mp hs
      simp only [applyResults, hcells]
      exact ih _ fun sk' cs'' h hne => hall sk' cs'' (List.mem_cons_of_mem _ h) hne

theorem applyResults_preserve (skcd : List (String × List Cell)) :
    ∀ (results : List (String × List String)) (t t' : Table) (cell : Cell),
      @applyResults ε skcd t results = .ok t' →
      (∀ sk c cs cells, (sk, c :: cs) ∈ results →
        lookupKey sk skcd = some cells → cell ∉ cells) →
      t'.annotations cell = t.annotations cell := by
  intro results
  induction results with
  | nil =>
    intro t t' cell h _
    cases h
    rfl
  | cons r rest ih =>
    intro t t' cell h hdisj
    obtain ⟨sk, cs⟩ := r
    cases cs with
    | nil =>
      simp only [applyResults] at h
      exact ih t t' cell h fun sk' c' cs' cells' hm hl =>
        hdisj sk' c' cs' cells' (List.mem_cons_of_mem _ hm) hl
    | cons c cs' =>
      simp only [applyResults] at h
      cases hl : lookupKey sk skcd with
      | none => rw [hl] at h; cases h
      | some cells0 =>
        rw [hl] at h
        have hstep := ih _ t' cell h fun sk' c' cs'' cells' hm hl' =>
          hdisj sk' c' cs'' cells' (List.mem_cons_of_mem _ hm) hl'
        rw [hstep, foldl_annotate_cell]
        rw [if_neg (hdisj sk c cs' cells0 (List.mem_cons_self _ _) hl)]

theorem applyResults_assign (skcd : List (String × List Cell)) :
    ∀ (results : List (String × List String)) (t t' : Table)
      (sk c : String) (cs : List String) (cell : Cell),
      (results.map Prod.fst).Nodup →
      @applyResults ε skcd t results = .ok t' →
      (sk, c :: cs) ∈ results →
      (∀ cells, lookupKey sk skcd = some cells → cell ∈ cells) →
      (∀ sk' cells', sk' ≠ sk → lookupKey sk' skcd = some cells' → cell ∉ cells') →
      t'.annotations cell = some ⟨c⟩ := by
  intro results
  induction results with
  | nil => intro t t' sk c cs cell _ _ hmem; cases hmem
  | cons r rest ih =>
    intro t t' sk c cs cell hnd h hmem hin hdisj
    obtain ⟨sk0, cs0⟩ := r
    simp only [List.map_cons, List.nodup_cons] at hnd
    cases cs0 with
    | nil =>
      simp only [applyResults] at h
      rcases List.mem_cons.mp hmem with he | hm
      · cases he
      · exact ih t t' sk c cs cell hnd.2 h hm hin hdisj
    | cons c0 cs0' =>
      simp only [applyResults] at h
      cases hl : lookupKey sk0 skcd with
      | none => rw [hl] at h; cases h
      | some cells0 =>
        rw [hl] at h
        rcases List.mem_cons.mp hmem with he | hm
        · obtain ⟨he1, he2⟩ := Prod.mk.injEq .. ▸ he
          have hc : c0 = c := (List.cons.injEq .. ▸ he2.symm).1
          subst he1
          have hpres := applyResults_preserve skcd rest _ t' cell h
            (fun sk' c' cs'' cells' hm' hl' => by
              intro hcellmem
              have hsk' : sk' ∈ rest.map Prod.fst := List.mem_map.mpr ⟨(sk', c' :: cs''), hm', rfl⟩
              have hne : sk' ≠ sk := fun hcontra => hnd.1 (hcontra ▸ hsk')
              exact hdisj sk' cells' hne hl' hcellmem)
          rw [hpres, foldl_annotate_cell, if_pos (hin cells0 hl), hc]
        · have hne0 : sk0 ≠ sk := by
            intro hcontra
            apply hnd.1
            rw [hcontra]
            exact List.mem_map.mpr ⟨(sk, c :: cs), hm, rfl⟩
          exact ih _ t' sk c cs cell hnd.2 h hm hin hdisj

/-- C6: on a cache miss, `annotate_table` deduplicates cells by search key
(the search-key/cells dict has exactly one entry per distinct normalized
key), invokes the generator once for the whole table, assigns — for every
search key whose candidate list is non-empty — the first candidate's
`Entity` to every cell sharing that key, and leaves cells whose key yielded
an empty candidate list unannotated. -/
theorem annotate_table_cache_miss (g : Generator ε) (cache : Cache) (t : Table)
    (results : List (String × List String))
    (hmiss : lookupKey (t.dataset_id, g.id, t.tab_id) cache = none)
    (hgen : g.get_candidates t = .ok results)
    (hkeys : (results.map Prod.fst).Nodup)
    (hpresent : ∀ sk cs, (sk, cs) ∈ results → cs ≠ [] → sk ∈ t.cells.map Prod.snd)
    (hcells : (t.cells.map Prod.fst).Nodup) :
    ∃ annotated,
      annotate_table g cache t =
        (.ok (annotated, 1), ((t.dataset_id, g.id, t.tab_id), annotated) :: cache) ∧
      (t.get_search_keys_cells_dict.map Prod.fst).Nodup ∧
      (∀ sk, sk ∈ t.get_search_keys_cells_dict.map Prod.fst ↔ sk ∈ t.cells.map Prod.snd) ∧
      (∀ sk c cs cell, (sk, c :: cs) ∈ results → (cell, sk) ∈ t.cells →
        annotated.annotations cell = some ⟨c⟩) ∧
      (∀ cell sk, (cell, sk) ∈ t.cells → (∀ cs, (sk, cs) ∈ results → cs = []) →
        annotated.annotations cell = t.annotations cell) := by
  obtain ⟨t', hrun⟩ := @applyResults_ok ε t.get_search_keys_cells_dict results t
    (fun sk cs hm hne => by rw [skcd_lookup t sk (hpresent sk cs hm hne)]; rfl)
  have hdictkeys : t.get_search_keys_cells_dict.map Prod.fst =
      distinctKeys (t.cells.map Prod.snd) := by
    unfold Table.get_search_keys_cells_dict
    rw [List.map_map]
    have hid : (Prod.fst ∘ fun sk =>
        (sk, (t.cells.filter fun p => p.2 = sk).map Prod.fst)) = id := rfl
    rw [hid, List.map_id]
  refine ⟨t', ?_, ?_, ?_, ?_, ?_⟩
  · simp only [annotate_table, hmiss, hgen, hrun]
  · rw [hdictkeys]
    exact distinctKeys_nodup _
  · intro sk
    rw [hdictkeys]
    exact mem_distinctKeys sk _
  · intro sk c cs cell hres hcell
    refine applyResults_assign t.get_search_keys_cells_dict results t t' sk c cs cell
      hkeys hrun hres ?_ ?_
    · intro cells hl
      rw [skcd_lookup_char t sk cells hl]
      exact (mem_group_iff t sk cell).mpr hcell
    · intro sk' cells' hne hl' hcellmem
      rw [skcd_lookup_char t sk' cells' hl'] at hcellmem
      have := (mem_group_iff t sk' cell).mp hcellmem
      exact hne (nodup_fst_unique t.cells hcells cell sk' sk this hcell)
  · intro cell sk hcell hempty
    refine applyResults_preserve t.get_search_keys_cells_dict results t t' cell hrun ?_
    intro sk' c' cs' cells' hm hl' hcellmem
    rw [skcd_lookup_char t sk' cells' hl'] at hcellmem
    have hmemcells := (mem_group_iff t sk' cell).mp hcellmem
    have hsk : sk' = sk := nodup_fst_unique t.cells hcells cell sk' sk hmemcells hcell
    subst hsk
    exact absurd (hempty (c' :: cs') hm) (by simp)

theorem annotate_table_cache_miss_witness :
    ∃ annotated,
      annotate_table (⟨"gen", fun _ => .ok [("k1", ["u1", "u2"]), ("k2", [])]⟩ : Generator Unit) []
          ⟨"ds", "t1", [((0, 0), "k1"), ((0, 1), "k1"), ((1, 0), "k2"), ((2, 0), "k3")],
            fun _ => none⟩ =
        (.ok (annotated, 1), (("ds", "gen", "t1"), annotated) :: []) ∧
      ((⟨"ds", "t1", [((0, 0), "k1"), ((0, 1), "k1"), ((1, 0), "k2"), ((2, 0), "k3")],
          fun _ => none⟩ : Table).get_search_keys_cells_dict.map Prod.fst).Nodup ∧
      (∀ sk, sk ∈ (⟨"ds", "t1",
          [((0, 0), "k1"), ((0, 1), "k1"), ((1, 0), "k2"), ((2, 0), "k3")],
          fun _ => none⟩ : Table).get_search_keys_cells_dict.map Prod.fst ↔
        sk ∈ [((0, 0), "k1"), ((0, 1), "k1"), ((1, 0), "k2"), ((2, 0), "k3")].map Prod.snd) ∧
      (∀ sk c cs (cell : Cell), (sk, c :: cs) ∈ [("k1", ["u1", "u2"]), ("k2", [])] →
        (cell, sk) ∈ [((0, 0), "k1"), ((0, 1), "k1"), ((1, 0), "k2"), ((2, 0), "k3")] →
        annotated.annotations cell = some ⟨c⟩) ∧
      (∀ (cell : Cell) sk,
        (cell, sk) ∈ [((0, 0), "k1"), ((0, 1), "k1"), ((1, 0), "k2"), ((2, 0), "k3")] →
        (∀ cs, (sk, cs) ∈ [("k1", ["u1", "u2"]), ("k2", [])] → cs = []) →
        annotated.annotations cell =
          (⟨"ds", "t1", [((0, 0), "k1"), ((0, 1), "k1"), ((1, 0), "k2"), ((2, 0), "k3")],
            fun _ => none⟩ : Table).annotations cell) :=
  annotate_table_cache_miss ⟨"gen", fun _ => .ok [("k1", ["u1", "u2"]), ("k2", [])]⟩ []
    ⟨"ds", "t1", [((0, 0), "k1"), ((0, 1), "k1"), ((1, 0), "k2"), ((2, 0), "k3")],
      fun _ => none⟩
    [("k1", ["u1", "u2"]), ("k2", [])] rfl rfl (by decide)
    (by
      intro sk cs h _
      rcases List.mem_cons.mp h with he | h2
      · cases he; decide
      · rcases List.mem_cons.mp h2 with he | h3
        · cases he; decide
        · cases h3)
    (by decide)

/-- C5: `Entity.__eq__` normalizes (percent-decode, then lowercase) and the
examples `Foo%20Bar` / `Foo Bar` compare equal — but the class overrides
`__eq__` without `__hash__`, so the inherited tuple hash is computed from the
raw `uri`, and these two equal entities hash on different raw strings: the
equal-hash half of the claim is violated by the code. -/
theorem entity_equal_but_hash_basis_differs :
    entityEq ⟨"http://x.org/Foo%20Bar"⟩ ⟨"http://x.org/Foo Bar"⟩ = true ∧
    entityHashBasis ⟨"http://x.org/Foo%20Bar"⟩ ≠ entityHashBasis ⟨"http://x.org/Foo Bar"⟩ :=
  ⟨rfl, by decide⟩

end Nest
